import Mathlib

/-!
Shallow embedding of the reconciliation core of `seller.py` and `market.py`:
the stock/price reconcilers (`create_stocks`, `create_prices`), the price
normalizer (`price_conversion`), the chunking generator (`divide`), and the
top-level exception dispatch of the two `main` entry points.

Python lists become Lean `List`s; in-place mutation of the `offer_ids`
argument (`offer_ids.remove(...)` inside `create_stocks`) is embedded by
returning the post-call state of the argument alongside the result; Python
exceptions (`ValueError` from `int(...)` and from `range(..., 0)`, and the
network errors caught in `main`) become `Option`/`Except` values.
-/

namespace SellerApis

/-- A feed row (`watch_remnants` element) with the three fields the
reconciler reads: `"Код"` (product code), `"Количество"` (textual quantity),
`"Цена"` (textual price).  The code reads them through `str(...)`, so all
three are embedded as strings. -/
structure RemnantRecord where
  code : String
  quantity : String
  price : String
deriving DecidableEq, Repr

/-- A stock record as built by `seller.create_stocks`:
`{"offer_id": ..., "stock": ...}`. -/
structure StockRecord where
  offer_id : String
  stock : Int
deriving DecidableEq, Repr

/-- A price record as built by `seller.create_prices`; the first, second and
fourth fields are the constants `"UNKNOWN"`, `"RUB"`, `"0"` from the source. -/
structure PriceRecord where
  auto_action_enabled : String
  currency_code : String
  offer_id : String
  old_price : String
  price : String
deriving DecidableEq, Repr

/-- One element of the `items` list of a `market.create_stocks` record:
`{"count": ..., "type": "FIT", "updatedAt": date}`. -/
structure MarketStockItem where
  count : Int
  type : String
  updatedAt : String
deriving DecidableEq, Repr

/-- A stock record as built by `market.create_stocks`:
`{"sku": ..., "warehouseId": ..., "items": [...]}`. -/
structure MarketStockRecord where
  sku : String
  warehouseId : String
  items : List MarketStockItem
deriving DecidableEq, Repr

/-- Decimal value of a digit string, most significant digit first. -/
def digitsVal (ds : List Char) : Nat :=
  ds.foldl (fun a c => 10 * a + (c.toNat - ('0').toNat)) 0

/-- ASCII whitespace, as stripped by Python's `int(...)` before parsing. -/
def isSpaceChar (c : Char) : Bool :=
  c = ' ' || c = '\t' || c = '\n' || c = '\r' || c = '\x0b' || c = '\x0c'

/-- Model of Python's `int(...)` applied to a string: optional surrounding
whitespace, an optional sign, then one or more decimal digits; everything
else raises `ValueError`, embedded as `none`.  (Python's underscore digit
separators are not modelled; no feed quantity uses them.) -/
def parsePyInt (s : String) : Option Int :=
  match ((s.toList.dropWhile isSpaceChar).reverse.dropWhile isSpaceChar).reverse with
  | [] => none
  | '+' :: ds =>
      if !ds.isEmpty && ds.all Char.isDigit then some (Int.ofNat (digitsVal ds)) else none
  | '-' :: ds =>
      if !ds.isEmpty && ds.all Char.isDigit then some (-(Int.ofNat (digitsVal ds))) else none
  | ds =>
      if ds.all Char.isDigit then some (Int.ofNat (digitsVal ds)) else none

/-- The quantity-to-count rule shared by both `create_stocks` bodies
(`seller.py` lines 199-205, `market.py` lines 178-184):
`">10"` gives 100, `"1"` gives 0, anything else goes through `int(...)`. -/
def parseCount (q : String) : Option Int :=
  if q = ">10" then some 100
  else if q = "1" then some 0
  else parsePyInt q

/-- The matching loop of `seller.create_stocks` (lines 197-207): walk the
feed; a record whose code is in the current offer-id list emits a stock
record and removes that code (Python `list.remove` deletes the first
occurrence, as does `List.erase`); other records are skipped.  Returns the
matched records in feed order together with the final state of the offer-id
list, or `none` when `int(...)` raises. -/
def create_stocks_loop : List RemnantRecord → List String → Option (List StockRecord × List String)
  | [], offer_ids => some ([], offer_ids)
  | w :: ws, offer_ids =>
    if w.code ∈ offer_ids then
      match parseCount w.quantity with
      | none => none
      | some stock =>
        match create_stocks_loop ws (offer_ids.erase w.code) with
        | none => none
        | some (recs, rest) => some (⟨w.code, stock⟩ :: recs, rest)
    else create_stocks_loop ws offer_ids

/-- Embedding of `seller.create_stocks` (lines 180-211): the matching loop, then one zero
stock record per offer id still in the (mutated) offer-id list.  The result
triple also carries the post-call state of the two list arguments: the feed,
which no statement of the function writes to, and the offer-id list as left
by the `remove` calls. -/
def create_stocks (watch_remnants : List RemnantRecord) (offer_ids : List String) :
    Option (List StockRecord × List RemnantRecord × List String) :=
  match create_stocks_loop watch_remnants offer_ids with
  | none => none
  | some (recs, rest) =>
      some (recs ++ rest.map (fun id => ⟨id, 0⟩), watch_remnants, rest)

/-- The matching loop of `market.create_stocks` (lines 176-198): same
control flow as the seller loop, but each match emits the Yandex-market
record shape with the given warehouse id and the timestamp captured at
entry. -/
def market_create_stocks_loop (warehouse_id date : String) :
    List RemnantRecord → List String → Option (List MarketStockRecord × List String)
  | [], offer_ids => some ([], offer_ids)
  | w :: ws, offer_ids =>
    if w.code ∈ offer_ids then
      match parseCount w.quantity with
      | none => none
      | some stock =>
        match market_create_stocks_loop warehouse_id date ws (offer_ids.erase w.code) with
        | none => none
        | some (recs, rest) =>
            some (⟨w.code, warehouse_id, [⟨stock, "FIT", date⟩]⟩ :: recs, rest)
    else market_create_stocks_loop warehouse_id date ws offer_ids

/-- Embedding of `market.create_stocks` (lines 153-214): the `date` parameter stands for
the timestamp string computed once at entry from `datetime.utcnow()`. -/
def market_create_stocks (watch_remnants : List RemnantRecord) (offer_ids : List String)
    (warehouse_id date : String) :
    Option (List MarketStockRecord × List RemnantRecord × List String) :=
  match market_create_stocks_loop warehouse_id date watch_remnants offer_ids with
  | none => none
  | some (recs, rest) =>
      some (recs ++ rest.map (fun id => ⟨id, warehouse_id, [⟨0, "FIT", date⟩]⟩),
            watch_remnants, rest)

/-- The seller stock record re-shaped as the market record with the given
warehouse id and timestamp; the two `create_stocks` loops agree up to this
re-shaping. -/
def toMarketRecord (warehouse_id date : String) (r : StockRecord) : MarketStockRecord :=
  ⟨r.offer_id, warehouse_id, [⟨r.stock, "FIT", date⟩]⟩

/-- A market stock record with its `updatedAt` timestamps blanked out, for
comparing two reconciliation runs up to the clock value each run sampled. -/
def stripDate (r : MarketStockRecord) : MarketStockRecord :=
  ⟨r.sku, r.warehouseId, r.items.map (fun it => ⟨it.count, it.type, ""⟩)⟩

/-- The characters of `price.split(".")[0]`: everything strictly before the
first `'.'`, or the whole string when no `'.'` occurs. -/
def beforeDot : List Char → List Char
  | [] => []
  | c :: cs => if c = '.' then [] else c :: beforeDot cs

/-- Embedding of `seller.price_conversion` (line 263):
`re.sub("[^0-9]", "", price.split(".")[0])`. -/
def price_conversion (price : String) : String :=
  String.mk ((beforeDot price.toList).filter Char.isDigit)

/-- Embedding of `seller.create_prices` (lines 214-240): one price record per feed record
whose code is in the offer-id list, in feed order; the offer-id list is only
read, never mutated. -/
def create_prices : List RemnantRecord → List String → List PriceRecord
  | [], _ => []
  | w :: ws, offer_ids =>
    if w.code ∈ offer_ids then
      ⟨"UNKNOWN", "RUB", w.code, "0", price_conversion w.price⟩ :: create_prices ws offer_ids
    else create_prices ws offer_ids

/-- The chunks produced by `divide`'s loop for chunk size `m + 1`:
`lst[i : i + n]` for `i = 0, n, 2n, ...`. -/
def chunksAux (m : Nat) : List α → List (List α)
  | [] => []
  | a :: l => (a :: l.take m) :: chunksAux m (l.drop m)
termination_by l => l.length
decreasing_by
  simp only [List.length_drop, List.length_cons]
  omega

/-- Embedding of `seller.divide` (lines 266-287), as consumed by `list(divide(lst, n))`:
`range(0, len(lst), 0)` raises `ValueError` before any chunk is yielded, so
chunk size 0 is embedded as the error branch. -/
def divide (lst : List α) (n : Nat) : Except String (List (List α)) :=
  if n = 0 then Except.error "ValueError: range() arg 3 must not be zero"
  else Except.ok (chunksAux (n - 1) lst)

/-- The exceptions distinguished by the `try`/`except` ladder of the two
`main` functions: `requests.exceptions.ReadTimeout`,
`requests.exceptions.ConnectionError`, and every other `Exception`. -/
inductive PyError where
  | readTimeout
  | connectionError (detail : String)
  | other (detail : String)
deriving DecidableEq, Repr

/-- The line printed by the matching `except` clause
(`seller.py` lines 322-327, `market.py` lines 316-321); `print(a, b)`
separates its arguments with one space. -/
def handleError (e : PyError) : String :=
  match e with
  | .readTimeout => "Превышено время ожидания..."
  | .connectionError d => d ++ " Ошибка соединения"
  | .other d => d ++ " ERROR_2"

/-- Embedding of `seller.main` (lines 307-327) around its pipeline: the whole body sits
inside the `try`, so the outcome is `none` (nothing printed) on success and
the printed line of the matching `except` clause on any raised error; `main`
itself never propagates. -/
def seller_main (pipeline : Except PyError Unit) : Option String :=
  match pipeline with
  | .ok _ => none
  | .error e => some (handleError e)

/-- Embedding of `market.main` (lines 289-321) around its pipeline: `download_stock()` is
called before the `try` block, so an error raised there propagates out of
`main`; only the block after it is guarded by the `except` ladder. -/
def market_main (feedFetch : Except PyError (List RemnantRecord))
    (tryBlock : List RemnantRecord → Except PyError Unit) : Except PyError (Option String) :=
  match feedFetch with
  | .error e => .error e
  | .ok w =>
    .ok (match tryBlock w with
         | .ok _ => none
         | .error e => some (handleError e))

/-- The value-level composition of `seller.main` lines 315-319: `create_stocks`
mutates `offer_ids`, then `create_prices` is called on the same (now
mutated) list. -/
def seller_main_pipeline (watch_remnants : List RemnantRecord) (offer_ids : List String) :
    Option (List StockRecord × List PriceRecord) :=
  match create_stocks watch_remnants offer_ids with
  | none => none
  | some (stocks, remnants2, ids2) => some (stocks, create_prices remnants2 ids2)

theorem create_stocks_loop_count :
    ∀ (feed : List RemnantRecord) (S : List String), S.Nodup →
    ∀ recs rest, create_stocks_loop feed S = some (recs, rest) →
    ∀ id : String, (recs.map StockRecord.offer_id).count id + rest.count id = S.count id := by
  intro feed
  induction feed with
  | nil =>
      intro S hnd recs rest h id
      simp only [create_stocks_loop, Option.some.injEq, Prod.mk.injEq] at h
      simp [← h.1, ← h.2]
  | cons w ws ih =>
      intro S hnd recs rest h id
      by_cases hmem : w.code ∈ S
      · rcases hq : parseCount w.quantity with _ | stock
        · simp [create_stocks_loop, hmem, hq] at h
        · rcases hl : create_stocks_loop ws (S.erase w.code) with _ | ⟨recs', rest'⟩
          · simp [create_stocks_loop, hmem, hq, hl] at h
          · simp only [create_stocks_loop, if_pos hmem, hq, hl, Option.some.injEq,
              Prod.mk.injEq] at h
            obtain ⟨h1, h2⟩ := h
            subst h1; subst h2
            have ihh := ih (S.erase w.code) (hnd.erase _) recs' rest' hl id
            by_cases hid : w.code = id
            · subst hid
              have hone : S.count w.code = 1 := List.count_eq_one_of_mem hnd hmem
              have hz : (S.erase w.code).count w.code = 0 := by
                rw [List.count_erase_self]; omega
              rw [hz] at ihh
              simp [List.count_cons, hone]
              omega
            · have hne : (S.erase w.code).count id = S.count id :=
                List.count_erase_of_ne (fun hc => hid hc.symm) _
              rw [hne] at ihh
              simpa [List.count_cons, hid] using ihh
      · simp only [create_stocks_loop, if_neg hmem] at h
        exact ih S hnd recs rest h id

theorem create_stocks_loop_shape :
    ∀ (feed : List RemnantRecord) (S : List String) recs rest,
    create_stocks_loop feed S = some (recs, rest) →
    List.Sublist rest S ∧
    List.Sublist (recs.map StockRecord.offer_id) (feed.map RemnantRecord.code) ∧
    (∀ r ∈ recs, ∃ w ∈ feed, w.code = r.offer_id ∧ parseCount w.quantity = some r.stock) := by
  intro feed
  induction feed with
  | nil =>
      intro S recs rest h
      simp only [create_stocks_loop, Option.some.injEq, Prod.mk.injEq] at h
      obtain ⟨h1, h2⟩ := h
      subst h1; subst h2
      exact ⟨List.Sublist.refl _, List.Sublist.refl _, by simp⟩
  | cons w ws ih =>
      intro S recs rest h
      by_cases hmem : w.code ∈ S
      · rcases hq : parseCount w.quantity with _ | stock
        · simp [create_stocks_loop, hmem, hq] at h
        · rcases hl : create_stocks_loop ws (S.erase w.code) with _ | ⟨recs', rest'⟩
          · simp [create_stocks_loop, hmem, hq, hl] at h
          · simp only [create_stocks_loop, if_pos hmem, hq, hl, Option.some.injEq,
              Prod.mk.injEq] at h
            obtain ⟨h1, h2⟩ := h
            subst h1; subst h2
            obtain ⟨hs1, hs2, hs3⟩ := ih (S.erase w.code) recs' rest' hl
            refine ⟨hs1.trans (List.erase_sublist _ _), ?_, ?_⟩
            · simpa using List.Sublist.cons₂ w.code hs2
            · intro r hr
              rcases List.mem_cons.mp hr with hr | hr
              · exact ⟨w, List.mem_cons_self _ _, by rw [hr], by rw [hr, hq]⟩
              · obtain ⟨w', hw', hc, hp⟩ := hs3 r hr
                exact ⟨w', List.mem_cons_of_mem _ hw', hc, hp⟩
      · simp only [create_stocks_loop, if_neg hmem] at h
        obtain ⟨hs1, hs2, hs3⟩ := ih S recs rest h
        refine ⟨hs1, hs2.trans (List.Sublist.cons _ (List.Sublist.refl _)), ?_⟩
        intro r hr
        obtain ⟨w', hw', hc, hp⟩ := hs3 r hr
        exact ⟨w', List.mem_cons_of_mem _ hw', hc, hp⟩

theorem create_stocks_loop_unmatched :
    ∀ (feed : List RemnantRecord) (S : List String) recs rest,
    create_stocks_loop feed S = some (recs, rest) →
    ∀ id ∈ S, (∀ w ∈ feed, w.code ≠ id) → id ∈ rest := by
  intro feed
  induction feed with
  | nil =>
      intro S recs rest h id hid _
      simp only [create_stocks_loop, Option.some.injEq, Prod.mk.injEq] at h
      rw [← h.2]; exact hid
  | cons w ws ih =>
      intro S recs rest h id hid hnone
      have hwid : w.code ≠ id := hnone w (List.mem_cons_self _ _)
      by_cases hmem : w.code ∈ S
      · rcases hq : parseCount w.quantity with _ | stock
        · simp [create_stocks_loop, hmem, hq] at h
        · rcases hl : create_stocks_loop ws (S.erase w.code) with _ | ⟨recs', rest'⟩
          · simp [create_stocks_loop, hmem, hq, hl] at h
          · simp only [create_stocks_loop, if_pos hmem, hq, hl, Option.some.injEq,
              Prod.mk.injEq] at h
            have hid' : id ∈ S.erase w.code :=
              (List.mem_erase_of_ne (fun hc => hwid hc.symm)).mpr hid
            have := ih (S.erase w.code) recs' rest' hl id hid'
              (fun w' hw' => hnone w' (List.mem_cons_of_mem _ hw'))
            rw [← h.2]; exact this
      · simp only [create_stocks_loop, if_neg hmem] at h
        exact ih S recs rest h id hid (fun w' hw' => hnone w' (List.mem_cons_of_mem _ hw'))

theorem create_stocks_loop_matched :
    ∀ (feed : List RemnantRecord) (S : List String) recs rest,
    create_stocks_loop feed S = some (recs, rest) →
    ∀ id ∈ S, (∃ w ∈ feed, w.code = id) →
    ∃ n, (∃ w ∈ feed, w.code = id ∧ parseCount w.quantity = some n) ∧
      (⟨id, n⟩ : StockRecord) ∈ recs := by
  intro feed
  induction feed with
  | nil =>
      intro S recs rest h id hid hex
      simp at hex
  | cons w ws ih =>
      intro S recs rest h id hid hex
      by_cases hwid : w.code = id
      · have hmem : w.code ∈ S := by rw [hwid]; exact hid
        rcases hq : parseCount w.quantity with _ | stock
        · simp [create_stocks_loop, hmem, hq] at h
        · rcases hl : create_stocks_loop ws (S.erase w.code) with _ | ⟨recs', rest'⟩
          · simp [create_stocks_loop, hmem, hq, hl] at h
          · simp only [create_stocks_loop, if_pos hmem, hq, hl, Option.some.injEq,
              Prod.mk.injEq] at h
            refine ⟨stock, ⟨w, List.mem_cons_self _ _, hwid, hq⟩, ?_⟩
            rw [← h.1, ← hwid]
            exact List.mem_cons_self _ _
      · have hex' : ∃ w' ∈ ws, w'.code = id := by
          obtain ⟨w', hw', hc⟩ := hex
          rcases List.mem_cons.mp hw' with hw' | hw'
          · exact absurd (hw' ▸ hc) hwid
          · exact ⟨w', hw', hc⟩
        by_cases hmem : w.code ∈ S
        · rcases hq : parseCount w.quantity with _ | stock
          · simp [create_stocks_loop, hmem, hq] at h
          · rcases hl : create_stocks_loop ws (S.erase w.code) with _ | ⟨recs', rest'⟩
            · simp [create_stocks_loop, hmem, hq, hl] at h
            · simp only [create_stocks_loop, if_pos hmem, hq, hl, Option.some.injEq,
                Prod.mk.injEq] at h
              have hid' : id ∈ S.erase w.code :=
                (List.mem_erase_of_ne (fun hc => hwid hc.symm)).mpr hid
              obtain ⟨n, ⟨w', hw', hc, hp⟩, hrec⟩ :=
                ih (S.erase w.code) recs' rest' hl id hid' hex'
              refine ⟨n, ⟨w', List.mem_cons_of_mem _ hw', hc, hp⟩, ?_⟩
              rw [← h.1]
              exact List.mem_cons_of_mem _ hrec
        · simp only [create_stocks_loop, if_neg hmem] at h
          obtain ⟨n, ⟨w', hw', hc, hp⟩, hrec⟩ := ih S recs rest h id hid hex'
          exact ⟨n, ⟨w', List.mem_cons_of_mem _ hw', hc, hp⟩, hrec⟩

theorem create_stocks_loop_rest :
    ∀ (feed : List RemnantRecord) (S : List String), S.Nodup →
    ∀ recs rest, create_stocks_loop feed S = some (recs, rest) →
    rest = S.filter (fun id => feed.all (fun w => w.code != id)) := by
  intro feed
  induction feed with
  | nil =>
      intro S hnd recs rest h
      simp only [create_stocks_loop, Option.some.injEq, Prod.mk.injEq] at h
      rw [← h.2]
      simp
  | cons w ws ih =>
      intro S hnd recs rest h
      by_cases hmem : w.code ∈ S
      · rcases hq : parseCount w.quantity with _ | stock
        · simp [create_stocks_loop, hmem, hq] at h
        · rcases hl : create_stocks_loop ws (S.erase w.code) with _ | ⟨recs', rest'⟩
          · simp [create_stocks_loop, hmem, hq, hl] at h
          · simp only [create_stocks_loop, if_pos hmem, hq, hl, Option.some.injEq,
              Prod.mk.injEq] at h
            rw [← h.2, ih (S.erase w.code) (hnd.erase _) recs' rest' hl,
              hnd.erase_eq_filter w.code, List.filter_filter]
            refine List.filter_congr ?_
            intro id _
            rcases eq_or_ne w.code id with hc | hc
            · subst hc; simp
            · have hc2 : id ≠ w.code := Ne.symm hc
              have e1 : (id != w.code) = true := by simp [hc2]
              have e2 : (w.code != id) = true := by simp [hc]
              simp [List.all_cons, e1, e2]
      · simp only [create_stocks_loop, if_neg hmem] at h
        rw [ih S hnd recs rest h]
        refine List.filter_congr ?_
        intro id hid
        have : w.code ≠ id := fun hc => hmem (hc ▸ hid)
        simp [List.all_cons, this]

theorem market_create_stocks_loop_eq (wid date : String) :
    ∀ (feed : List RemnantRecord) (S : List String),
    market_create_stocks_loop wid date feed S =
      (create_stocks_loop feed S).map
        (fun p => (p.1.map (toMarketRecord wid date), p.2)) := by
  intro feed
  induction feed with
  | nil => intro S; rfl
  | cons w ws ih =>
      intro S
      by_cases hmem : w.code ∈ S
      · rcases hq : parseCount w.quantity with _ | stock
        · simp [market_create_stocks_loop, create_stocks_loop, hmem, hq]
        · rcases hl : create_stocks_loop ws (S.erase w.code) with _ | ⟨recs', rest'⟩
          · simp [market_create_stocks_loop, create_stocks_loop, hmem, hq, ih, hl]
          · simp [market_create_stocks_loop, create_stocks_loop, hmem, hq, ih, hl,
              toMarketRecord]
      · simp [market_create_stocks_loop, create_stocks_loop, hmem, ih]

theorem market_create_stocks_eq (feed : List RemnantRecord) (S : List String)
    (wid date : String) :
    market_create_stocks feed S wid date =
      (create_stocks feed S).map
        (fun t => (t.1.map (toMarketRecord wid date), t.2.1, t.2.2)) := by
  simp only [market_create_stocks, create_stocks, market_create_stocks_loop_eq]
  rcases create_stocks_loop feed S with _ | ⟨recs, rest⟩
  · rfl
  · simp [toMarketRecord]

/-- The spec's reading of `price_conversion`: the part of the string before
the first `'.'`, keeping only digit characters. -/
def price_conversion_spec (price : String) : String :=
  String.mk ((price.toList.takeWhile (fun c => c != '.')).filter Char.isDigit)

theorem beforeDot_eq_takeWhile (l : List Char) :
    beforeDot l = l.takeWhile (fun c => c != '.') := by
  induction l with
  | nil => rfl
  | cons c cs ih =>
      by_cases hc : c = '.'
      · simp [beforeDot, hc, List.takeWhile_cons]
      · simp [beforeDot, hc, List.takeWhile_cons, ih]

/-- C4. `price_conversion` keeps exactly the digits of the part of the
price string before the first `'.'`; in particular `"5'990.00 руб."` maps to
`"5990"` and `"199.99"` maps to `"199"`. -/
theorem price_conversion_before_dot_digits :
    (∀ s : String, price_conversion s = price_conversion_spec s) ∧
    price_conversion "5'990.00 руб." = "5990" ∧
    price_conversion "199.99" = "199" := by
  refine ⟨fun s => ?_, rfl, rfl⟩
  simp [price_conversion, price_conversion_spec, beforeDot_eq_takeWhile]

/-- C3. The quantity-to-count rule: `">10"` yields 100, `"1"` yields 0,
any other text is parsed as an integer; and for a feed record matched at the
head of the feed, the emitted stock count is exactly the one this rule
derives. -/
theorem quantity_rule_exact :
    parseCount ">10" = some 100 ∧
    parseCount "1" = some 0 ∧
    (∀ q n, q ≠ ">10" → q ≠ "1" → parsePyInt q = some n → parseCount q = some n) ∧
    (∀ w ws S stocks feed2 rest, w.code ∈ S →
      create_stocks (w :: ws) S = some (stocks, feed2, rest) →
      ∃ n, parseCount w.quantity = some n ∧
        stocks.headD ⟨"", 0⟩ = (⟨w.code, n⟩ : StockRecord)) := by
  refine ⟨rfl, rfl, fun q n h1 h2 h3 => ?_, fun w ws S stocks feed2 rest hmem h => ?_⟩
  · simp [parseCount, h1, h2, h3]
  · simp only [create_stocks, create_stocks_loop, if_pos hmem] at h
    rcases hq : parseCount w.quantity with _ | n
    · rw [hq] at h; simp at h
    · rw [hq] at h
      rcases hl : create_stocks_loop ws (S.erase w.code) with _ | ⟨recs, rest'⟩
      · rw [hl] at h; simp at h
      · rw [hl] at h
        simp only [Option.some.injEq, Prod.mk.injEq] at h
        refine ⟨n, rfl, ?_⟩
        rw [← h.1]
        rfl

/-- C3 witness. The rule at the three concrete quantity texts of the
spec, the last through the integer branch of `quantity_rule_exact`. -/
theorem quantity_rule_exact_witness :
    parseCount ">10" = some 100 ∧ parseCount "1" = some 0 ∧ parseCount "7" = some 7 :=
  ⟨quantity_rule_exact.1, quantity_rule_exact.2.1,
    quantity_rule_exact.2.2.1 "7" 7 (by decide) (by decide) (by rfl)⟩

/-- C7 counterexample. Two separate runs of `market.create_stocks` on equal
copies of the same feed and offer-id snapshot are not identical: the
function samples `datetime.utcnow()` internally (market.py line 175), so
the two runs carry the two distinct timestamps they sampled and their
outputs differ in the `updatedAt` field. -/
theorem market_reconciler_two_runs_differ :
    market_create_stocks [] ["A"] "W" "2024-01-01T00:00:00Z" ≠
    market_create_stocks [] ["A"] "W" "2024-01-01T00:00:01Z" := by
  decide

/-- C7 (amended). Two separate runs of the seller reconciler
(`create_stocks` and `create_prices`) on equal copies of the same feed and
offer-id snapshot produce identical outputs.  The market reconciler samples
its `updatedAt` timestamp internally, so its two runs are identical exactly
when the two sampled timestamps agree; for arbitrary sampled timestamps the
two runs agree on everything except `updatedAt` — after blanking that field
the outputs, including record order and the residual offer-id list, are
identical. -/
theorem reconciler_two_run_timestamp_determinism (feed1 feed2 : List RemnantRecord)
    (S1 S2 : List String) (hf : feed1 = feed2) (hS : S1 = S2) :
    create_stocks feed1 S1 = create_stocks feed2 S2 ∧
    create_prices feed1 S1 = create_prices feed2 S2 ∧
    (∀ wid date1 date2, date1 = date2 →
      market_create_stocks feed1 S1 wid date1 = market_create_stocks feed2 S2 wid date2) ∧
    (∀ wid date1 date2,
      (market_create_stocks feed1 S1 wid date1).map
        (fun t => (t.1.map stripDate, t.2)) =
      (market_create_stocks feed2 S2 wid date2).map
        (fun t => (t.1.map stripDate, t.2))) := by
  subst hf; subst hS
  refine ⟨rfl, rfl, fun wid d1 d2 hd => by rw [hd], fun wid d1 d2 => ?_⟩
  rw [market_create_stocks_eq, market_create_stocks_eq]
  rcases create_stocks feed1 S1 with _ | t
  · rfl
  · show some ((List.map (toMarketRecord wid d1) t.1).map stripDate, t.2.1, t.2.2) =
      some ((List.map (toMarketRecord wid d2) t.1).map stripDate, t.2.1, t.2.2)
    rw [List.map_map, List.map_map]
    rfl

/-- C7 (amended) witness. The timestamp-aware determinism statement applied
to two equal copies of the end-to-end scenario's inputs. -/
theorem reconciler_two_run_timestamp_determinism_witness :
    create_stocks [⟨"A1", ">10", "100.50"⟩] ["A1", "B2"] =
      create_stocks [⟨"A1", ">10", "100.50"⟩] ["A1", "B2"] ∧
    create_prices [⟨"A1", ">10", "100.50"⟩] ["A1", "B2"] =
      create_prices [⟨"A1", ">10", "100.50"⟩] ["A1", "B2"] ∧
    (∀ wid date1 date2, date1 = date2 →
      market_create_stocks [⟨"A1", ">10", "100.50"⟩] ["A1", "B2"] wid date1 =
      market_create_stocks [⟨"A1", ">10", "100.50"⟩] ["A1", "B2"] wid date2) ∧
    (∀ wid date1 date2,
      (market_create_stocks [⟨"A1", ">10", "100.50"⟩] ["A1", "B2"] wid date1).map
        (fun t => (t.1.map stripDate, t.2)) =
      (market_create_stocks [⟨"A1", ">10", "100.50"⟩] ["A1", "B2"] wid date2).map
        (fun t => (t.1.map stripDate, t.2))) :=
  reconciler_two_run_timestamp_determinism _ _ _ _ rfl rfl

/-- C8 counterexample. In `market.main` the feed download runs before
the `try` block, so an error raised there escapes `main` uncaught: the
entry-point model propagates it instead of printing. -/
theorem market_main_feed_error_escapes :
    market_main (Except.error (PyError.other "boom")) (fun _ => Except.ok ()) =
      Except.error (PyError.other "boom") := rfl

/-- C8 (amended). Every exception raised inside the `try` block of
either entry point is caught and printed in three tiers — a fixed message
for read timeouts, the detail plus a connection message for connection
errors, the detail plus a generic tag for everything else — and never
propagates; but in `market.main` the feed download happens before the `try`
block and an exception raised there escapes `main` uncaught. -/
theorem main_error_tiers :
    (seller_main (Except.ok ()) = none) ∧
    (seller_main (Except.error PyError.readTimeout) = some "Превышено время ожидания...") ∧
    (∀ d, seller_main (Except.error (PyError.connectionError d)) =
      some (d ++ " Ошибка соединения")) ∧
    (∀ d, seller_main (Except.error (PyError.other d)) = some (d ++ " ERROR_2")) ∧
    (∀ e, seller_main (Except.error e) = some (handleError e)) ∧
    (∀ w tryBlock, market_main (Except.ok w) tryBlock = Except.ok (seller_main (tryBlock w))) ∧
    (∀ e tryBlock, market_main (Except.error e) tryBlock = Except.error e) := by
  refine ⟨rfl, rfl, fun d => rfl, fun d => rfl, fun e => rfl, fun w tb => ?_, fun e tb => rfl⟩
  cases h : tb w <;> simp [market_main, seller_main, h]

/-- C2 (code bug). On the end-to-end scenario's inputs, the composition
used by `seller.main` — `create_stocks` followed by `create_prices` on the
same, now mutated, offer-id list — produces exactly the claimed stock list
but an empty price list, because the matched id `"A1"` was removed from the
list before `create_prices` reads it; `create_prices` on a fresh copy of
the offer-id list (as the spec intends) does produce the claimed record. -/
theorem seller_main_price_aliasing_eval :
    seller_main_pipeline [⟨"A1", ">10", "100.50"⟩] ["A1", "B2"] =
      some ([⟨"A1", 100⟩, ⟨"B2", 0⟩], []) ∧
    create_prices [⟨"A1", ">10", "100.50"⟩] ["A1", "B2"] =
      [⟨"UNKNOWN", "RUB", "A1", "0", "100"⟩] :=
  ⟨rfl, rfl⟩

/-- C1. For a duplicate-free offer-id list `S`, the stock list built by
`create_stocks` has exactly one record per id of `S`: matched ids carry a
count derived by the quantity rule from a feed record with that code,
ids matched by no feed record get the zero record, feed records whose code
is not in `S` contribute nothing (every record's id lies in `S`), and
`market.create_stocks` produces the same list re-shaped record for record. -/
theorem create_stocks_exactly_one_per_offer_id
    (feed : List RemnantRecord) (S : List String) (stocks : List StockRecord)
    (feed2 : List RemnantRecord) (rest : List String)
    (hnd : S.Nodup) (h : create_stocks feed S = some (stocks, feed2, rest)) :
    (∀ id ∈ S, (stocks.map StockRecord.offer_id).count id = 1) ∧
    (∀ r ∈ stocks, r.offer_id ∈ S) ∧
    (∀ id ∈ S, (∀ w ∈ feed, w.code ≠ id) → (⟨id, 0⟩ : StockRecord) ∈ stocks) ∧
    (∀ id ∈ S, (∃ w ∈ feed, w.code = id) →
      ∃ n, (∃ w ∈ feed, w.code = id ∧ parseCount w.quantity = some n) ∧
        (⟨id, n⟩ : StockRecord) ∈ stocks) ∧
    (∀ wid date, market_create_stocks feed S wid date =
      some (stocks.map (toMarketRecord wid date), feed2, rest)) := by
  rcases hl : create_stocks_loop feed S with _ | ⟨recs, rest'⟩
  · simp [create_stocks, hl] at h
  · simp only [create_stocks, hl, Option.some.injEq, Prod.mk.injEq] at h
    obtain ⟨h1, h2, h3⟩ := h
    subst h1; subst h2; subst h3
    obtain ⟨hs1, hs2, hs3⟩ := create_stocks_loop_shape feed S recs rest' hl
    have hmap : ((recs ++ rest'.map fun id => (⟨id, 0⟩ : StockRecord)).map
        StockRecord.offer_id) = recs.map StockRecord.offer_id ++ rest' := by
      simp only [List.map_append, List.map_map]
      congr 1
      have hcomp : (StockRecord.offer_id ∘ fun id => (⟨id, 0⟩ : StockRecord)) = id := rfl
      rw [hcomp, List.map_id]
    refine ⟨?_, ?_, ?_, ?_, ?_⟩
    · intro id hid
      have hcnt := create_stocks_loop_count feed S hnd recs rest' hl id
      have hone : S.count id = 1 := List.count_eq_one_of_mem hnd hid
      rw [hmap, List.count_append]
      omega
    · intro r hr
      rcases List.mem_append.mp hr with hr | hr
      · by_contra hns
        have hcnt := create_stocks_loop_count feed S hnd recs rest' hl r.offer_id
        have hz : S.count r.offer_id = 0 := by
          rw [List.count_eq_zero]; exact hns
        have hmem : r.offer_id ∈ recs.map StockRecord.offer_id :=
          List.mem_map_of_mem _ hr
        have : (recs.map StockRecord.offer_id).count r.offer_id = 0 := by omega
        rw [List.count_eq_zero] at this
        exact this hmem
      · obtain ⟨id, hidmem, hr⟩ := List.mem_map.mp hr
        rw [← hr]
        exact hs1.subset hidmem
    · intro id hid hnone
      have := create_stocks_loop_unmatched feed S recs rest' hl id hid hnone
      exact List.mem_append_right _ (List.mem_map_of_mem _ this)
    · intro id hid hex
      obtain ⟨n, hexw, hrec⟩ := create_stocks_loop_matched feed S recs rest' hl id hid hex
      exact ⟨n, hexw, List.mem_append_left _ hrec⟩
    · intro wid date
      rw [market_create_stocks_eq]
      simp [create_stocks, hl]

/-- C1 witness. The exactly-once invariant at the end-to-end scenario's
inputs: feed `[{"Код": "A1", "Количество": ">10", "Цена": "100.50"}]` and
offer ids `["A1", "B2"]`. -/
theorem create_stocks_exactly_one_per_offer_id_witness :
    (∀ id ∈ ["A1", "B2"],
      (([⟨"A1", 100⟩, ⟨"B2", 0⟩] : List StockRecord).map StockRecord.offer_id).count id = 1) ∧
    (∀ r ∈ ([⟨"A1", 100⟩, ⟨"B2", 0⟩] : List StockRecord), r.offer_id ∈ ["A1", "B2"]) ∧
    (∀ id ∈ ["A1", "B2"],
      (∀ w ∈ [(⟨"A1", ">10", "100.50"⟩ : RemnantRecord)], w.code ≠ id) →
      (⟨id, 0⟩ : StockRecord) ∈ ([⟨"A1", 100⟩, ⟨"B2", 0⟩] : List StockRecord)) ∧
    (∀ id ∈ ["A1", "B2"],
      (∃ w ∈ [(⟨"A1", ">10", "100.50"⟩ : RemnantRecord)], w.code = id) →
      ∃ n, (∃ w ∈ [(⟨"A1", ">10", "100.50"⟩ : RemnantRecord)],
              w.code = id ∧ parseCount w.quantity = some n) ∧
        (⟨id, n⟩ : StockRecord) ∈ ([⟨"A1", 100⟩, ⟨"B2", 0⟩] : List StockRecord)) ∧
    (∀ wid date, market_create_stocks [⟨"A1", ">10", "100.50"⟩] ["A1", "B2"] wid date =
      some (([⟨"A1", 100⟩, ⟨"B2", 0⟩] : List StockRecord).map (toMarketRecord wid date),
        [⟨"A1", ">10", "100.50"⟩], ["B2"])) :=
  create_stocks_exactly_one_per_offer_id _ _ _ _ _ (by decide) (by rfl)

/-- C6. The stock list is the matched records — whose ids follow the
order of their feed records — followed by the zero records for the leftover
offer ids, which keep their relative order from the input offer-id list. -/
theorem create_stocks_output_order
    (feed : List RemnantRecord) (S : List String) (stocks : List StockRecord)
    (feed2 : List RemnantRecord) (rest : List String)
    (h : create_stocks feed S = some (stocks, feed2, rest)) :
    ∃ matched, stocks = matched ++ rest.map (fun id => (⟨id, 0⟩ : StockRecord)) ∧
      List.Sublist (matched.map StockRecord.offer_id) (feed.map RemnantRecord.code) ∧
      List.Sublist rest S ∧
      ∀ r ∈ matched, ∃ w ∈ feed, w.code = r.offer_id ∧ parseCount w.quantity = some r.stock := by
  rcases hl : create_stocks_loop feed S with _ | ⟨recs, rest'⟩
  · simp [create_stocks, hl] at h
  · simp only [create_stocks, hl, Option.some.injEq, Prod.mk.injEq] at h
    obtain ⟨h1, h2, h3⟩ := h
    subst h1; subst h2; subst h3
    obtain ⟨hs1, hs2, hs3⟩ := create_stocks_loop_shape feed S recs rest' hl
    exact ⟨recs, rfl, hs2, hs1, hs3⟩

/-- C6 witness. The ordering decomposition at the end-to-end scenario's
inputs. -/
theorem create_stocks_output_order_witness :
    ∃ matched, ([⟨"A1", 100⟩, ⟨"B2", 0⟩] : List StockRecord) =
      matched ++ (["B2"].map (fun id => (⟨id, 0⟩ : StockRecord))) ∧
    List.Sublist (matched.map StockRecord.offer_id)
      ([(⟨"A1", ">10", "100.50"⟩ : RemnantRecord)].map RemnantRecord.code) ∧
    List.Sublist ["B2"] ["A1", "B2"] ∧
    ∀ r ∈ matched, ∃ w ∈ [(⟨"A1", ">10", "100.50"⟩ : RemnantRecord)],
      w.code = r.offer_id ∧ parseCount w.quantity = some r.stock :=
  create_stocks_output_order _ _ _ _ _ (by rfl)

/-- C9 counterexample. With the duplicated offer-id list `["A", "A"]`
and a feed record coded `"A"`, `create_stocks` leaves `["A"]` in the
offer-id list even though the id `"A"` is matched by a feed record — the
claim's description of the post-call list fails without a duplicate-free
hypothesis. -/
theorem create_stocks_duplicate_offer_ids_cex :
    create_stocks [⟨"A", "5", "p"⟩] ["A", "A"] =
      some ([⟨"A", 5⟩, ⟨"A", 0⟩], [⟨"A", "5", "p"⟩], ["A"]) ∧
    ¬ (∀ id ∈ ["A"], ∀ w ∈ [(⟨"A", "5", "p"⟩ : RemnantRecord)], w.code ≠ id) :=
  ⟨rfl, by decide⟩

/-- C9 (amended). For a duplicate-free offer-id list, `create_stocks`
leaves the feed unchanged and leaves in the offer-id list exactly the ids
matched by no feed record, in their original relative order (the list is
the input filtered to those ids). -/
theorem create_stocks_offer_ids_post_state
    (feed : List RemnantRecord) (S : List String) (stocks : List StockRecord)
    (feed2 : List RemnantRecord) (rest : List String)
    (hnd : S.Nodup) (h : create_stocks feed S = some (stocks, feed2, rest)) :
    feed2 = feed ∧ rest = S.filter (fun id => feed.all (fun w => w.code != id)) := by
  rcases hl : create_stocks_loop feed S with _ | ⟨recs, rest'⟩
  · simp [create_stocks, hl] at h
  · simp only [create_stocks, hl, Option.some.injEq, Prod.mk.injEq] at h
    obtain ⟨h1, h2, h3⟩ := h
    subst h1; subst h2; subst h3
    exact ⟨rfl, create_stocks_loop_rest feed S hnd recs rest' hl⟩

/-- C9 (amended) witness. The post-state characterization at the
end-to-end scenario's inputs. -/
theorem create_stocks_offer_ids_post_state_witness :
    [(⟨"A1", ">10", "100.50"⟩ : RemnantRecord)] = [⟨"A1", ">10", "100.50"⟩] ∧
    ["B2"] = (["A1", "B2"].filter
      (fun id => [(⟨"A1", ">10", "100.50"⟩ : RemnantRecord)].all (fun w => w.code != id))) :=
  create_stocks_offer_ids_post_state _ _ _ _ _ (by decide) (by rfl)

theorem chunksAux_join {α : Type} (m : Nat) : ∀ (l : List α), (chunksAux m l).flatten = l
  | [] => by simp [chunksAux]
  | a :: l => by
      have ih := chunksAux_join m (l.drop m)
      simp [chunksAux, ih, List.take_append_drop]
termination_by l => l.length
decreasing_by simp only [List.length_drop, List.length_cons]; omega

theorem chunksAux_length {α : Type} (m : Nat) : ∀ (l : List α),
    (chunksAux m l).length = (l.length + m) / (m + 1)
  | [] => by simp [chunksAux, Nat.div_eq_of_lt (by omega : m < m + 1)]
  | a :: l => by
      have ih := chunksAux_length m (l.drop m)
      rw [chunksAux]
      simp only [List.length_cons, ih, List.length_drop]
      rcases le_or_lt m l.length with hle | hlt
      · have e1 : l.length - m + m = l.length := by omega
        have e2 : l.length + 1 + m = l.length + (m + 1) := by omega
        rw [e1, e2, Nat.add_div_right _ (by omega)]
      · have e1 : l.length - m = 0 := by omega
        have e2 : (0 + m) / (m + 1) = 0 := Nat.div_eq_of_lt (by omega)
        rw [e1, e2]
        have e3 : (l.length + 1 + m) / (m + 1) = 1 :=
          Nat.div_eq_of_lt_le (by omega) (by omega)
        rw [e3]
termination_by l => l.length
decreasing_by simp only [List.length_drop, List.length_cons]; omega

theorem chunksAux_eq_nil_iff {α : Type} (m : Nat) (l : List α) :
    chunksAux m l = [] ↔ l = [] := by
  cases l <;> simp [chunksAux]

theorem chunksAux_dropLast_length {α : Type} (m : Nat) : ∀ (l : List α),
    ∀ c ∈ (chunksAux m l).dropLast, c.length = m + 1
  | [] => by simp [chunksAux]
  | a :: l => by
      intro c hc
      rw [chunksAux] at hc
      rcases hrec : chunksAux m (l.drop m) with _ | ⟨c2, cs⟩
      · rw [hrec] at hc
        simp at hc
      · rw [hrec] at hc
        have hih := chunksAux_dropLast_length m (l.drop m)
        rcases List.mem_cons.mp (by simpa [List.dropLast] using hc) with hc' | hc'
        · have hne : l.drop m ≠ [] := by
            intro hnil
            rw [hnil] at hrec
            simp [chunksAux] at hrec
          have hlen : m < l.length := by
            by_contra hge
            exact hne (List.drop_eq_nil_of_le (by omega))
          rw [hc']
          simp [List.length_take]
          omega
        · have := hih c (by rw [hrec]; exact hc')
          exact this
termination_by l => l.length
decreasing_by simp only [List.length_drop, List.length_cons]; omega

/-- C5. For chunk size `n ≥ 1`, `divide` succeeds with
`ceil(length / n)` chunks, every chunk before the last has exactly `n`
elements, and concatenating the chunks in order rebuilds the input list. -/
theorem divide_chunk_shape {α : Type} (lst : List α) (n : Nat) (r : List (List α))
    (hn : 1 ≤ n) (h : divide lst n = Except.ok r) :
    r.length = (lst.length + n - 1) / n ∧
    (∀ c ∈ r.dropLast, c.length = n) ∧
    r.flatten = lst := by
  obtain ⟨m, rfl⟩ : ∃ m, n = m + 1 := ⟨n - 1, by omega⟩
  simp only [divide, if_neg (Nat.succ_ne_zero m), Nat.add_sub_cancel,
    Except.ok.injEq] at h
  subst h
  have e : lst.length + (m + 1) - 1 = lst.length + m := by omega
  rw [e, chunksAux_length]
  exact ⟨rfl, chunksAux_dropLast_length m lst, chunksAux_join m lst⟩

/-- C5 witness. The chunk-shape contract on a five-element list with
chunk size 2: three chunks, the first two of size 2, concatenating back to
the input. -/
theorem divide_chunk_shape_witness :
    ([[1, 2], [3, 4], [5]] : List (List Nat)).length = (5 + 2 - 1) / 2 ∧
    (∀ c ∈ ([[1, 2], [3, 4], [5]] : List (List Nat)).dropLast, c.length = 2) ∧
    ([[1, 2], [3, 4], [5]] : List (List Nat)).flatten = [1, 2, 3, 4, 5] :=
  divide_chunk_shape [1, 2, 3, 4, 5] 2 _ (by decide) (by simp [divide, chunksAux])

/-- C10. `divide` is total exactly for chunk sizes at least 1: with
chunk size 0 it reaches the `ValueError` branch before yielding any chunk,
for every list including the empty one, and with a positive chunk size it
always succeeds. -/
theorem divide_zero_chunk_size {α : Type} (lst : List α) :
    divide lst 0 = Except.error "ValueError: range() arg 3 must not be zero" ∧
    ∀ n, 1 ≤ n → ∃ r, divide lst n = Except.ok r := by
  refine ⟨rfl, fun n hn => ⟨chunksAux (n - 1) lst, ?_⟩⟩
  simp [divide, Nat.pos_iff_ne_zero.mp hn]

/-- C10 witness. The totality dichotomy at the empty list and at
chunk sizes 0 and 2. -/
theorem divide_zero_chunk_size_witness :
    divide ([] : List Nat) 0 = Except.error "ValueError: range() arg 3 must not be zero" ∧
    ∃ r, divide ([] : List Nat) 2 = Except.ok r :=
  ⟨(divide_zero_chunk_size []).1, (divide_zero_chunk_size []).2 2 (by decide)⟩

end SellerApis
